import Mathlib

/-!
Shallow embedding of the matching-model construction and result-extraction
code of `matchmaker.py` (classes `MatchMaker` and `MatchTracker`).

Participants are referenced by their roster index `0 .. n-1`; the opaque
`Person` capabilities (`matrix_similarity`, `is_pairing_preferred`,
`is_pairable`, `day_choice`) are parameters of the definitions, since the
core never inspects participant internals.  Python floats are modelled as
rationals; Python's distinct `Person` objects compare unequal, so the
identity test `person1 != person2` on roster entries is index inequality.
-/

namespace DatePairing

/-- `itertools.combinations(l, k)`: all size-`k` combinations of `l`,
keeping the order of `l`, combinations starting with earlier elements
first.  Used by pulp's `allcombinations`. -/
def combinations : ℕ → List ℕ → List (List ℕ)
  | 0, _ => [[]]
  | _ + 1, [] => []
  | k + 1, x :: xs => (combinations k xs).map (fun c => x :: c) ++ combinations (k + 1) xs

/-- pulp's `allcombinations(orgset, k)`: the chain of
`itertools.combinations(orgset, i)` for `i = 1 .. k`. -/
def allcombinations (l : List ℕ) (k : ℕ) : List (List ℕ) :=
  (List.range' 1 k).flatMap (fun i => combinations i l)

/-- `tuple(c)` for the 2-element combination lists produced above. -/
def toPair (c : List ℕ) : ℕ × ℕ := (c.headD 0, c.getD 1 0)

/-- `MatchTracker.__init__`: the candidate-pair keys.
`[tuple(c) for c in allcombinations(range(n), k=2) if len(set(c)) == 2]`
followed by `[(idx, idx) for idx in range(n)]`. -/
def possible_matches (n : ℕ) : List (ℕ × ℕ) :=
  ((allcombinations (List.range n) 2).filter (fun c => c.dedup.length == 2)).map toPair
    ++ (List.range n).map (fun idx => (idx, idx))

/-- `MatchTracker.get_variables_for_person`: the keys of the variables
touching `idx` (Python `idx in possible_match` on a 2-tuple). -/
def get_variables_for_person (n idx : ℕ) : List (ℕ × ℕ) :=
  (possible_matches n).filter (fun pm => pm.1 == idx || pm.2 == idx)

/- ### Basic facts about `combinations` -/

theorem combinations_one (l : List ℕ) : combinations 1 l = l.map (fun a => [a]) := by
  induction l with
  | nil => rfl
  | cons x xs ih => simp [combinations, ih]

theorem mem_combinations {c : List ℕ} : ∀ {k : ℕ} {l : List ℕ},
    c ∈ combinations k l ↔ c.Sublist l ∧ c.length = k := by
  intro k l
  induction l generalizing k c with
  | nil =>
    cases k with
    | zero =>
      simp only [combinations, List.mem_singleton]
      constructor
      · rintro rfl; exact ⟨List.Sublist.refl _, rfl⟩
      · rintro ⟨hs, hl⟩
        exact List.eq_nil_of_length_eq_zero hl
    | succ k =>
      simp only [combinations, List.not_mem_nil, false_iff, not_and]
      intro hs hl
      have := List.Sublist.length_le hs
      simp [hl] at this
  | cons x xs ih =>
    cases k with
    | zero =>
      simp only [combinations, List.mem_singleton]
      constructor
      · rintro rfl; exact ⟨List.nil_sublist _, rfl⟩
      · rintro ⟨hs, hl⟩
        exact List.eq_nil_of_length_eq_zero hl
    | succ k =>
      simp only [combinations, List.mem_append, List.mem_map]
      constructor
      · rintro (⟨c', hc', rfl⟩ | h)
        · obtain ⟨hs, hl⟩ := ih.mp hc'
          exact ⟨List.Sublist.cons₂ x hs, by simp [hl]⟩
        · obtain ⟨hs, hl⟩ := ih.mp h
          exact ⟨hs.trans (List.sublist_cons_self x xs), hl⟩
      · rintro ⟨hs, hl⟩
        rcases List.sublist_cons_iff.mp hs with h | ⟨r, rfl, hr⟩
        · exact Or.inr (ih.mpr ⟨h, hl⟩)
        · exact Or.inl ⟨r, ih.mpr ⟨hr, by simpa using hl⟩, rfl⟩

theorem combinations_nodup {l : List ℕ} (hl : l.Nodup) :
    ∀ k, (combinations k l).Nodup := by
  induction l with
  | nil =>
    intro k; cases k <;> simp [combinations]
  | cons x xs ih =>
    intro k
    have hx : x ∉ xs := (List.nodup_cons.mp hl).1
    have hxs : xs.Nodup := (List.nodup_cons.mp hl).2
    cases k with
    | zero => simp [combinations]
    | succ k =>
      simp only [combinations]
      refine List.Nodup.append ?_ (ih hxs (k + 1)) ?_
      · exact (ih hxs k).map (fun a b h => by simpa using h)
      · intro c hc hc'
        simp only [List.mem_map] at hc
        obtain ⟨c', _, rfl⟩ := hc
        have hs := (mem_combinations.mp hc').1
        have : x ∈ xs := hs.subset (List.mem_cons_self x c')
        exact hx this

theorem combinations_length (l : List ℕ) :
    ∀ k, (combinations k l).length = l.length.choose k := by
  induction l with
  | nil => intro k; cases k <;> simp [combinations]
  | cons x xs ih =>
    intro k
    cases k with
    | zero => simp [combinations]
    | succ k =>
      simp only [combinations, List.length_append, List.length_map, ih,
        List.length_cons, Nat.choose_succ_succ]

/- ### Characterization of the candidate-pair space -/

theorem pair_sublist_range {a b n : ℕ} (hab : a < b) (hbn : b < n) :
    [a, b].Sublist (List.range n) := by
  induction n with
  | zero => omega
  | succ m ih =>
    rw [List.range_succ]
    rcases Nat.lt_or_ge b m with hbm | hbm
    · exact (ih hbm).trans (List.sublist_append_left _ _)
    · have hbm' : b = m := by omega
      subst hbm'
      have h1 : [a].Sublist (List.range b) :=
        List.singleton_sublist.mpr (List.mem_range.mpr hab)
      simpa using List.Sublist.append h1 (List.Sublist.refl [b])

theorem mem_combinations_two_range {c : List ℕ} {n : ℕ} :
    c ∈ combinations 2 (List.range n) ↔
      ∃ a b, a < b ∧ b < n ∧ c = [a, b] := by
  constructor
  · intro hc
    obtain ⟨hs, hl⟩ := mem_combinations.mp hc
    match c, hl with
    | [a, b], _ =>
      have hsort : List.Pairwise (· < ·) [a, b] :=
        (List.pairwise_lt_range n).sublist hs
      have hab : a < b := by simpa using hsort
      have hbn : b < n := List.mem_range.mp (hs.subset (by simp))
      exact ⟨a, b, hab, hbn, rfl⟩
  · rintro ⟨a, b, hab, hbn, rfl⟩
    exact mem_combinations.mpr ⟨pair_sublist_range hab hbn, rfl⟩

/-- The `len(set(c)) == 2` filter keeps exactly the size-2 combinations of
the chain `allcombinations(range(n), 2)`. -/
theorem filter_allcombinations (n : ℕ) :
    (allcombinations (List.range n) 2).filter (fun c => c.dedup.length == 2)
      = combinations 2 (List.range n) := by
  have hrange : List.range' 1 2 = [1, 2] := rfl
  rw [allcombinations, hrange]
  simp only [List.flatMap_cons, List.flatMap_nil, List.append_nil, List.filter_append]
  have h1 : (combinations 1 (List.range n)).filter (fun c => c.dedup.length == 2) = [] := by
    rw [List.filter_eq_nil_iff]
    intro c hc
    rw [combinations_one, List.mem_map] at hc
    obtain ⟨a, _, rfl⟩ := hc
    simp
  have h2 : (combinations 2 (List.range n)).filter (fun c => c.dedup.length == 2)
      = combinations 2 (List.range n) := by
    rw [List.filter_eq_self]
    intro c hc
    obtain ⟨a, b, hab, _, rfl⟩ := mem_combinations_two_range.mp hc
    have : ([a, b] : List ℕ).Nodup := by simp; omega
    rw [List.dedup_eq_self.mpr this]
    simp
  rw [h1, h2, List.nil_append]

theorem toPair_pair (a b : ℕ) : toPair [a, b] = (a, b) := rfl

/-- C2 membership: the candidate-pair keys are exactly the canonically
ordered real pairs and the self-pairs. -/
theorem mem_possible_matches {n : ℕ} {pm : ℕ × ℕ} :
    pm ∈ possible_matches n ↔
      (pm.1 < pm.2 ∧ pm.2 < n) ∨ (pm.1 = pm.2 ∧ pm.1 < n) := by
  obtain ⟨a, b⟩ := pm
  rw [possible_matches, filter_allcombinations, List.mem_append]
  constructor
  · rintro (h | h)
    · rw [List.mem_map] at h
      obtain ⟨c, hc, hpair⟩ := h
      obtain ⟨a', b', hab, hbn, rfl⟩ := mem_combinations_two_range.mp hc
      rw [toPair_pair] at hpair
      obtain ⟨rfl, rfl⟩ := Prod.mk.injEq .. ▸ hpair
      exact Or.inl ⟨hab, hbn⟩
    · rw [List.mem_map] at h
      obtain ⟨idx, hidx, heq⟩ := h
      obtain ⟨rfl, rfl⟩ := Prod.mk.injEq .. ▸ heq
      exact Or.inr ⟨rfl, List.mem_range.mp hidx⟩
  · rintro (⟨hab, hbn⟩ | ⟨heq, hlt⟩)
    · left
      rw [List.mem_map]
      exact ⟨[a, b], mem_combinations_two_range.mpr ⟨a, b, hab, hbn, rfl⟩, toPair_pair a b⟩
    · right
      rw [List.mem_map]
      refine ⟨a, List.mem_range.mpr hlt, ?_⟩
      have hab : a = b := heq
      rw [hab]

theorem possible_matches_nodup (n : ℕ) : (possible_matches n).Nodup := by
  rw [possible_matches, filter_allcombinations]
  refine List.Nodup.append ?_ ?_ ?_
  · refine ((combinations_nodup (List.nodup_range n)) 2).map_on ?_
    intro c hc d hd hcd
    obtain ⟨a, b, _, _, rfl⟩ := mem_combinations_two_range.mp hc
    obtain ⟨a', b', _, _, rfl⟩ := mem_combinations_two_range.mp hd
    rw [toPair_pair, toPair_pair, Prod.mk.injEq] at hcd
    simp [hcd.1, hcd.2]
  · exact (List.nodup_range n).map (fun a b h => by simpa using h)
  · intro pm h1 h2
    rw [List.mem_map] at h1 h2
    obtain ⟨c, hc, rfl⟩ := h1
    obtain ⟨a, b, hab, _, rfl⟩ := mem_combinations_two_range.mp hc
    obtain ⟨idx, _, heq⟩ := h2
    rw [toPair_pair, Prod.mk.injEq] at heq
    omega

theorem possible_matches_length (n : ℕ) :
    (possible_matches n).length = n * (n + 1) / 2 := by
  rw [possible_matches, filter_allcombinations]
  rw [List.length_append, List.length_map, List.length_map, List.length_range,
    combinations_length, List.length_range, Nat.choose_two_right]
  have h : n * (n + 1) = n * (n - 1) + 2 * n := by
    cases n with
    | zero => rfl
    | succ m =>
      have hm : m + 1 - 1 = m := rfl
      rw [hm]; ring
  rw [h, Nat.add_mul_div_left _ _ (by norm_num : 0 < 2)]

/- ### The LP model built by `MatchMaker._initialse_problem`

The code adds the objective, then one `lpSum(vars) == 1` constraint per
person, then one `variable <= is_pairable` constraint per candidate pair.
Decision variables are `LpInteger` with bounds `[0, 1]`; a solution is an
integer assignment to the candidate-pair keys. -/

/-- A linear constraint as emitted by `_initialse_problem`: either
`lpSum(vars) == 1` or `variable <= constant`. -/
inductive Constraint where
  | eqOne : List (ℕ × ℕ) → Constraint
  | leConst : (ℕ × ℕ) → ℤ → Constraint
deriving DecidableEq, Repr

/-- Satisfaction of one constraint by an assignment of integer values to
the decision variables. -/
def constraintSat (x : ℕ × ℕ → ℤ) : Constraint → Prop
  | .eqOne vars => (vars.map x).sum = 1
  | .leConst v c => x v ≤ c

instance (x : ℕ × ℕ → ℤ) (c : Constraint) : Decidable (constraintSat x c) := by
  cases c <;> simp only [constraintSat] <;> infer_instance

/-- The per-pair objective coefficient:
`reward = person1.matrix_similarity(person2)`,
`penalty = 1 - person1.is_pairing_preferred(person2)`,
`score = reward - (0.1 * penalty)`. -/
def pairScore (sim pref : ℕ → ℕ → ℚ) (i j : ℕ) : ℚ :=
  sim i j - (1 / 10) * (1 - pref i j)

/-- The assembled maximization problem: objective terms in candidate-pair
order, then coverage constraints, then eligibility constraints. -/
structure LpProblemModel where
  maximize : Bool
  objTerms : List ((ℕ × ℕ) × ℚ)
  constraints : List Constraint

/-- `MatchMaker._initialse_problem` on a roster of `n` persons with
capability functions `sim`, `pref` (rational-valued) and `pairable`
(integer 0/1 indicator). -/
def initialise_problem (n : ℕ) (sim pref : ℕ → ℕ → ℚ) (pairable : ℕ → ℕ → ℤ) :
    LpProblemModel where
  maximize := true
  objTerms := (possible_matches n).map (fun pm => (pm, pairScore sim pref pm.1 pm.2))
  constraints :=
    (List.range n).map (fun idx => Constraint.eqOne (get_variables_for_person n idx))
      ++ (possible_matches n).map (fun pm => Constraint.leConst pm (pairable pm.1 pm.2))

/-- Objective value of an assignment: `lpSum(variable * score)` over the
accumulated terms. -/
def objValue (P : LpProblemModel) (x : ℕ × ℕ → ℤ) : ℚ :=
  (P.objTerms.map (fun t => (x t.1 : ℚ) * t.2)).sum

/-- A feasible solution: every variable within its `lowBound=0, upBound=1`
bounds and every emitted constraint satisfied. -/
def feasible (n : ℕ) (P : LpProblemModel) (x : ℕ × ℕ → ℤ) : Prop :=
  (∀ pm ∈ possible_matches n, 0 ≤ x pm ∧ x pm ≤ 1) ∧
    (∀ c ∈ P.constraints, constraintSat x c)

instance (n : ℕ) (P : LpProblemModel) (x : ℕ × ℕ → ℤ) : Decidable (feasible n P x) := by
  unfold feasible; infer_instance

/- ### Result extraction (`MatchTracker` readback)

After solving, each variable carries `varValue`; before solving it is
`None`.  Python evaluates `varValue > 0` on each key in order and a `None`
value raises a `TypeError`, modelled as an `Except` error. -/

/-- Python `v > 0` where `v` is `varValue`: raises on `None`. -/
def varValueGtZero : Option ℚ → Except String Bool
  | none => .error "TypeError: not supported between NoneType and int"
  | some v => .ok (decide (0 < v))

/-- The list comprehension filter of `get_true_possible_matches`,
evaluating the predicate left to right and propagating the first raise. -/
def filterTruthy (v : ℕ × ℕ → Option ℚ) : List (ℕ × ℕ) → Except String (List (ℕ × ℕ))
  | [] => .ok []
  | pm :: rest =>
    match varValueGtZero (v pm) with
    | .error e => .error e
    | .ok b =>
      match filterTruthy v rest with
      | .error e => .error e
      | .ok l => .ok (if b then pm :: l else l)

/-- `MatchTracker.get_true_possible_matches`: the candidate pairs whose
variable value is `> 0`. -/
def get_true_possible_matches (n : ℕ) (v : ℕ × ℕ → Option ℚ) :
    Except String (List (ℕ × ℕ)) :=
  filterTruthy v (possible_matches n)

/-- `MatchTracker.get_matches`: the selected pairs mapped through the
roster (`persons[i]` is identified with its index `i`). -/
def get_matches (n : ℕ) (v : ℕ × ℕ → Option ℚ) : Except String (List (ℕ × ℕ)) :=
  (get_true_possible_matches n v).map (fun l => l.map (fun pm => (pm.1, pm.2)))

/-- `MatchTracker.get_true_variables`: the variables (identified by their
candidate-pair keys) of the selected pairs. -/
def get_true_variables (n : ℕ) (v : ℕ × ℕ → Option ℚ) : Except String (List (ℕ × ℕ)) :=
  (get_true_possible_matches n v).map (fun l => l.map (fun pm => pm))

/- ### Reporting (`MatchMaker.solve` and `MatchMaker.log_matches`) -/

/-- pulp's `LpStatusOptimal`. -/
def LpStatusOptimal : Int := 1

/-- pulp's `LpStatusNotSolved`. -/
def LpStatusNotSolved : Int := 0

/-- pulp's `LpStatusInfeasible`. -/
def LpStatusInfeasible : Int := -1

/-- pulp's `LpStatusUnbounded`. -/
def LpStatusUnbounded : Int := -2

/-- pulp's `LpStatus` dictionary, used for the logged status line. -/
def lpStatusName (status : Int) : String :=
  if status = 1 then "Optimal"
  else if status = 0 then "Not Solved"
  else if status = -1 then "Infeasible"
  else if status = -2 then "Unbounded"
  else "Undefined"

/-- The helper `get_day_or_either` inside `log_matches`:
`day1 if day1 != "Either" else day2`. -/
def get_day_or_either (day1 day2 : String) : String :=
  if day1 ≠ "Either" then day1 else day2

/-- `day_dict[key].append(pm)` on a `defaultdict(list)` kept as an
insertion-ordered association list. -/
def addToGroup (key : String) (pm : ℕ × ℕ) :
    List (String × List (ℕ × ℕ)) → List (String × List (ℕ × ℕ))
  | [] => [(key, [pm])]
  | (k, vs) :: rest =>
    if k = key then (k, vs ++ [pm]) :: rest else (k, vs) :: addToGroup key pm rest

/-- The loop of `log_matches` over the selected pairs: self-pairs are
appended to `unmatched`, real pairs to `day_dict[get_day_or_either(...)]`. -/
def log_matches_step (day : ℕ → String)
    (acc : List (String × List (ℕ × ℕ)) × List ℕ) (pm : ℕ × ℕ) :
    List (String × List (ℕ × ℕ)) × List ℕ :=
  if pm.1 = pm.2 then (acc.1, acc.2 ++ [pm.1])
  else (addToGroup (get_day_or_either (day pm.1) (day pm.2)) pm acc.1, acc.2)

/-- `log_matches` grouping pass over an already-extracted selection. -/
def log_matches_groups (day : ℕ → String) (sel : List (ℕ × ℕ)) :
    List (String × List (ℕ × ℕ)) × List ℕ :=
  sel.foldl (log_matches_step day) ([], [])

/-- The data reported by one `MatchMaker.solve` run. -/
structure SolveReport where
  statusLine : String
  scores : List ℚ
  numMatches : ℕ
  numNotMatched : ℤ
  dayGroups : List (String × List (ℕ × ℕ))
  unmatched : List ℕ
deriving DecidableEq, Repr

/-- `MatchMaker.solve` after the solver call: logs the status, extracts
the selection, computes scores, `num_matches` (incremented by 2 per real
pair), the day breakdown and the unmatched list, and reports
`len(self.persons) - num_matches` people not matched.  No branch inspects
the solver status. -/
def solveRun (n : ℕ) (sim : ℕ → ℕ → ℚ) (day : ℕ → String) (status : Int)
    (v : ℕ × ℕ → Option ℚ) : Except String SolveReport :=
  match get_true_possible_matches n v with
  | .error e => .error e
  | .ok sel =>
    let scores := sel.map (fun pm => sim pm.1 pm.2)
    let num_matches := 2 * (sel.filter (fun pm => pm.1 ≠ pm.2)).length
    let groups := log_matches_groups day sel
    .ok { statusLine := lpStatusName status
          scores := scores
          numMatches := num_matches
          numNotMatched := (n : ℤ) - num_matches
          dayGroups := groups.1
          unmatched := groups.2 }

/-- Everything a `SolveReport` carries apart from the logged status line. -/
def reportData (r : SolveReport) :
    List ℚ × ℕ × ℤ × List (String × List (ℕ × ℕ)) × List ℕ :=
  (r.scores, r.numMatches, r.numNotMatched, r.dayGroups, r.unmatched)

/- ### Helper lemmas for the coverage invariant -/

/-- For a list of integers each within `[0, 1]`, the number of positive
entries equals the sum. -/
theorem countP_pos_eq_sum {l : List ℤ} (h : ∀ v ∈ l, 0 ≤ v ∧ v ≤ 1) :
    (l.countP (fun v => decide (0 < v)) : ℤ) = l.sum := by
  induction l with
  | nil => simp
  | cons a t ih =>
    have ha := h a (List.mem_cons_self a t)
    have ht := ih (fun v hv => h v (List.mem_cons_of_mem a hv))
    rw [List.countP_cons, List.sum_cons]
    have : a = 0 ∨ a = 1 := by omega
    rcases this with rfl | rfl
    · simpa using ht
    · simp only [decide_eq_true_eq]
      rw [if_pos (by norm_num : (0:ℤ) < 1)]
      push_cast
      omega

/-- In a duplicate-free list, filtering for a member singles it out. -/
theorem filter_eq_singleton_of_nodup {α : Type} [DecidableEq α] {l : List α}
    {a : α} (hnd : l.Nodup) (ha : a ∈ l) :
    l.filter (fun b => decide (b = a)) = [a] := by
  induction l with
  | nil => cases ha
  | cons x t ih =>
    obtain ⟨hx, ht⟩ := List.nodup_cons.mp hnd
    rcases List.mem_cons.mp ha with rfl | hat
    · have htf : t.filter (fun b => decide (b = a)) = [] := by
        rw [List.filter_eq_nil_iff]
        intro b hb
        simp only [decide_eq_true_eq]
        rintro rfl
        exact hx hb
      simp [List.filter_cons, htf]
    · have hxa : x ≠ a := by rintro rfl; exact hx hat
      simp [List.filter_cons, hxa, ih ht hat]

theorem coverage_mem_constraints (n : ℕ) (sim pref : ℕ → ℕ → ℚ)
    (pairable : ℕ → ℕ → ℤ) {idx : ℕ} (hidx : idx < n) :
    Constraint.eqOne (get_variables_for_person n idx)
      ∈ (initialise_problem n sim pref pairable).constraints := by
  rw [initialise_problem, List.mem_append]
  left
  rw [List.mem_map]
  exact ⟨idx, List.mem_range.mpr hidx, rfl⟩

/- ### Claim theorems -/

/-- C1: for every participant index `idx`, the model contains the
constraint that the variables touching `idx` sum to 1, the self-pair
variable appears exactly once among them, and consequently every feasible
solution selects exactly one candidate pair containing `idx`. -/
theorem c1_coverage_exactly_one (n : ℕ) (sim pref : ℕ → ℕ → ℚ)
    (pairable : ℕ → ℕ → ℤ) (idx : ℕ) (hidx : idx < n) :
    Constraint.eqOne (get_variables_for_person n idx)
        ∈ (initialise_problem n sim pref pairable).constraints ∧
      (get_variables_for_person n idx).filter
          (fun pm => decide (pm = (idx, idx))) = [(idx, idx)] ∧
      ∀ x : ℕ × ℕ → ℤ, feasible n (initialise_problem n sim pref pairable) x →
        ((get_variables_for_person n idx).filter
          (fun pm => decide (0 < x pm))).length = 1 := by
  refine ⟨coverage_mem_constraints n sim pref pairable hidx, ?_, ?_⟩
  · have hmem : (idx, idx) ∈ get_variables_for_person n idx := by
      rw [get_variables_for_person, List.mem_filter]
      exact ⟨mem_possible_matches.mpr (Or.inr ⟨rfl, hidx⟩), by simp⟩
    have hnd : (get_variables_for_person n idx).Nodup :=
      (possible_matches_nodup n).filter _
    exact filter_eq_singleton_of_nodup hnd hmem
  · intro x hx
    obtain ⟨hbounds, hcons⟩ := hx
    have hsum : ((get_variables_for_person n idx).map x).sum = 1 :=
      hcons _ (coverage_mem_constraints n sim pref pairable hidx)
    have hb : ∀ v ∈ (get_variables_for_person n idx).map x, 0 ≤ v ∧ v ≤ 1 := by
      intro v hv
      rw [List.mem_map] at hv
      obtain ⟨pm, hpm, rfl⟩ := hv
      exact hbounds pm (List.mem_of_mem_filter hpm)
    have hcount := countP_pos_eq_sum hb
    rw [hsum] at hcount
    have hcount' : ((get_variables_for_person n idx).map x).countP
        (fun v => decide (0 < v)) = 1 := by exact_mod_cast hcount
    rw [List.countP_map] at hcount'
    rw [← List.countP_eq_length_filter]
    exact hcount'

/-- Witness for C1 on a concrete 2-person roster at index 0, with the
solution matching persons 0 and 1 to each other. -/
theorem c1_coverage_exactly_one_witness :
    Constraint.eqOne (get_variables_for_person 2 0)
        ∈ (initialise_problem 2 (fun _ _ => 0) (fun _ _ => 1)
            (fun _ _ => 1)).constraints ∧
      (get_variables_for_person 2 0).filter
          (fun pm => decide (pm = (0, 0))) = [(0, 0)] ∧
      ((get_variables_for_person 2 0).filter
        (fun pm => decide
          (0 < (fun q : ℕ × ℕ => if q.1 = q.2 then (0 : ℤ) else 1) pm))).length
        = 1 := by
  have h := c1_coverage_exactly_one 2 (fun _ _ => 0) (fun _ _ => 1)
    (fun _ _ => 1) 0 (by decide)
  exact ⟨h.1, h.2.1,
    h.2.2 (fun q => if q.1 = q.2 then 0 else 1) (by decide)⟩

/-- C2: the candidate-pair key set is exactly the canonical strictly
ordered pairs together with the self-pairs, with no duplicates, of size
`n * (n + 1) / 2`, and never contains a reversed copy `(j, i)` of a real
pair. -/
theorem c2_candidate_pair_space (n : ℕ) :
    (∀ pm : ℕ × ℕ, pm ∈ possible_matches n ↔
        (pm.1 < pm.2 ∧ pm.2 < n) ∨ (pm.1 = pm.2 ∧ pm.1 < n)) ∧
      (possible_matches n).Nodup ∧
      (possible_matches n).length = n * (n + 1) / 2 ∧
      ∀ i j : ℕ, i < j → (j, i) ∉ possible_matches n := by
  refine ⟨fun pm => mem_possible_matches, possible_matches_nodup n,
    possible_matches_length n, ?_⟩
  intro i j hij h
  rcases mem_possible_matches.mp h with ⟨h1, _⟩ | ⟨h1, _⟩ <;> simp at h1 <;> omega

/-- Witness for C2: on a 3-person roster, the reversed pair `(1, 0)` is
not a variable key. -/
theorem c2_candidate_pair_space_witness : (1, 0) ∉ possible_matches 3 :=
  (c2_candidate_pair_space 3).2.2.2 0 1 (by decide)

/-- C3: every candidate pair carries the constraint
`variable(i,j) <= pairable(i,j)`, and in every feasible solution a pair
with `pairable = 0` has its variable forced to 0, hence is never
selected. -/
theorem c3_eligibility (n : ℕ) (sim pref : ℕ → ℕ → ℚ) (pairable : ℕ → ℕ → ℤ) :
    (∀ pm ∈ possible_matches n,
        Constraint.leConst pm (pairable pm.1 pm.2)
          ∈ (initialise_problem n sim pref pairable).constraints) ∧
      ∀ x : ℕ × ℕ → ℤ, feasible n (initialise_problem n sim pref pairable) x →
        ∀ pm ∈ possible_matches n, pairable pm.1 pm.2 = 0 →
          x pm = 0 ∧ ¬ 0 < x pm := by
  constructor
  · intro pm hpm
    rw [initialise_problem, List.mem_append]
    right
    rw [List.mem_map]
    exact ⟨pm, hpm, rfl⟩
  · intro x hx pm hpm h0
    obtain ⟨hbounds, hcons⟩ := hx
    have hle : x pm ≤ pairable pm.1 pm.2 := by
      have := hcons _ (by
        rw [initialise_problem, List.mem_append]
        right
        rw [List.mem_map]
        exact ⟨pm, hpm, rfl⟩)
      exact this
    have hge := (hbounds pm hpm).1
    constructor <;> omega

/-- Witness for C3: with `pairable(0,1) = 0` on a 2-person roster, the
(feasible) all-self-pairs solution indeed has the `(0,1)` variable at 0. -/
theorem c3_eligibility_witness :
    (Constraint.leConst (0, 1)
        ((fun i j => if i = j then (1 : ℤ) else 0) 0 1)
        ∈ (initialise_problem 2 (fun _ _ => 0) (fun _ _ => 1)
            (fun i j => if i = j then 1 else 0)).constraints) ∧
      (fun pm : ℕ × ℕ => if pm.1 = pm.2 then (1 : ℤ) else 0) (0, 1) = 0 ∧
      ¬ 0 < (fun pm : ℕ × ℕ => if pm.1 = pm.2 then (1 : ℤ) else 0) (0, 1) := by
  have h := c3_eligibility 2 (fun _ _ => 0) (fun _ _ => 1)
    (fun i j => if i = j then 1 else 0)
  have h2 := h.2 (fun pm => if pm.1 = pm.2 then 1 else 0) (by decide)
    (0, 1) (by decide) (by decide)
  exact ⟨h.1 (0, 1) (by decide), h2.1, h2.2⟩

/-- C4: the assembled problem is a maximization whose objective terms are
exactly one per candidate pair (self-pairs included), the coefficient of
each pair being `similarity - 0.1 * (1 - preferred)`. -/
theorem c4_objective (n : ℕ) (sim pref : ℕ → ℕ → ℚ) (pairable : ℕ → ℕ → ℤ) :
    (initialise_problem n sim pref pairable).maximize = true ∧
      (initialise_problem n sim pref pairable).objTerms.map Prod.fst
        = possible_matches n ∧
      (∀ x : ℕ × ℕ → ℤ,
        objValue (initialise_problem n sim pref pairable) x =
          ((possible_matches n).map
            (fun pm => (sim pm.1 pm.2 - (1 / 10) * (1 - pref pm.1 pm.2))
              * (x pm : ℚ))).sum) ∧
      ∀ i, i < n →
        ((i, i), pairScore sim pref i i)
          ∈ (initialise_problem n sim pref pairable).objTerms := by
  refine ⟨rfl, ?_, ?_, ?_⟩
  · rw [initialise_problem]
    simp only [List.map_map]
    show List.map (fun pm => pm) (possible_matches n) = possible_matches n
    exact List.map_id' _
  · intro x
    rw [objValue, initialise_problem]
    simp only [List.map_map]
    refine congrArg List.sum (List.map_congr_left ?_)
    intro pm _
    simp only [Function.comp_apply, pairScore]
    ring
  · intro i hi
    rw [initialise_problem]
    simp only [List.mem_map]
    exact ⟨(i, i), mem_possible_matches.mpr (Or.inr ⟨rfl, hi⟩), rfl⟩

/-- Witness for C4: the self-pair `(0,0)` has its objective term on a
2-person roster. -/
theorem c4_objective_witness :
    ((0, 0), pairScore (fun _ _ => 0) (fun _ _ => 1) 0 0)
      ∈ (initialise_problem 2 (fun _ _ => 0) (fun _ _ => 1)
          (fun _ _ => 1)).objTerms :=
  (c4_objective 2 (fun _ _ => 0) (fun _ _ => 1) (fun _ _ => 1)).2.2.2 0
    (by decide)

/-- C5 counterexample: with the solver reporting `Infeasible`, `solve`
still extracts and reports a matching (here the pair `(0,1)`), so a
non-optimal status does not abort the run. -/
theorem c5_counterexample :
    solveRun 2 (fun _ _ => 0) (fun _ => "Either") LpStatusInfeasible
        (fun pm => if pm = (0, 1) then some 1 else some 0)
      = Except.ok
          { statusLine := "Infeasible"
            scores := [0]
            numMatches := 2
            numNotMatched := 0
            dayGroups := [("Either", [(0, 1)])]
            unmatched := [] } := by
  rfl

/-- C5 amended: `solve` merely logs the status; extraction and all
reported data are computed identically for every solver status. -/
theorem c5_amended_status_ignored (n : ℕ) (sim : ℕ → ℕ → ℚ)
    (day : ℕ → String) (status status' : Int) (v : ℕ × ℕ → Option ℚ) :
    Except.map reportData (solveRun n sim day status v)
      = Except.map reportData (solveRun n sim day status' v) := by
  unfold solveRun
  cases hg : get_true_possible_matches n v <;> rfl

/-- C6 counterexample: an assignment selecting `(0,1)`, `(0,0)` and
`(1,1)` at once violates the one-pair-per-participant invariant (index 0
appears twice), yet extraction returns it as a normal result with no
error. -/
theorem c6_counterexample :
    get_true_possible_matches 2 (fun _ => some 1)
        = Except.ok [(0, 1), (0, 0), (1, 1)] ∧
      (([(0, 1), (0, 0), (1, 1)] : List (ℕ × ℕ)).filter
        (fun pm => pm.1 == 0 || pm.2 == 0)).length = 2 := by
  constructor
  · rfl
  · rfl

/-- C6 amended: once every variable carries a value, extraction returns
exactly the candidate pairs whose value is `> 0`, with no consistency
check — invariant-violating selections are accepted silently. -/
theorem c6_amended_no_consistency_check (n : ℕ) (v : ℕ × ℕ → Option ℚ)
    (h : ∀ pm ∈ possible_matches n, (v pm).isSome) :
    get_true_possible_matches n v
      = Except.ok ((possible_matches n).filter
          (fun pm => decide (0 < (v pm).getD 0))) := by
  rw [get_true_possible_matches]
  generalize possible_matches n = l at h ⊢
  induction l with
  | nil => rfl
  | cons pm rest ih =>
    have hpm := h pm (List.mem_cons_self pm rest)
    obtain ⟨q, hq⟩ := Option.isSome_iff_exists.mp hpm
    have hrest := ih (fun a ha => h a (List.mem_cons_of_mem pm ha))
    rw [List.filter_cons]
    simp only [filterTruthy, hq, varValueGtZero, hrest, Option.getD_some]

/-- Witness for the amended C6: a fully assigned (invariant-violating)
run returns the filtered list. -/
theorem c6_amended_no_consistency_check_witness :
    get_true_possible_matches 2 (fun _ => some (1 : ℚ))
      = Except.ok ((possible_matches 2).filter
          (fun pm => decide (0 < (((fun _ => some (1 : ℚ)) pm).getD 0)))) :=
  c6_amended_no_consistency_check 2 (fun _ => some 1) (by decide)

/-- C7 counterexample: for a 1-person roster no error is raised;
candidate pairs, a coverage constraint and an eligibility constraint are
all built. -/
theorem c7_counterexample :
    possible_matches 1 = [(0, 0)] ∧
      (initialise_problem 1 (fun _ _ => 0) (fun _ _ => 1)
          (fun _ _ => 1)).constraints
        = [Constraint.eqOne [(0, 0)], Constraint.leConst (0, 0) 1] := by
  constructor
  · rfl
  · rfl

/-- C7 amended: construction performs no roster-size validation; for
rosters of 0 or 1 participants the model is built normally (for one
person a single self-pair variable with its coverage and eligibility
constraints). -/
theorem c7_amended_no_roster_validation (sim pref : ℕ → ℕ → ℚ)
    (pairable : ℕ → ℕ → ℤ) :
    possible_matches 0 = [] ∧
      (initialise_problem 0 sim pref pairable).constraints = [] ∧
      (initialise_problem 0 sim pref pairable).objTerms = [] ∧
      possible_matches 1 = [(0, 0)] ∧
      (initialise_problem 1 sim pref pairable).constraints
        = [Constraint.eqOne [(0, 0)],
           Constraint.leConst (0, 0) (pairable 0 0)] ∧
      (initialise_problem 1 sim pref pairable).objTerms
        = [((0, 0), pairScore sim pref 0 0)] :=
  ⟨rfl, rfl, rfl, rfl, rfl, rfl⟩

/- ### Lemmas about the day-breakdown fold -/

/-- Total number of pairs stored across all buckets. -/
def groupSizes (g : List (String × List (ℕ × ℕ))) : ℕ :=
  (g.map (fun kv => kv.2.length)).sum

theorem groupSizes_addToGroup (key : String) (pm : ℕ × ℕ)
    (acc : List (String × List (ℕ × ℕ))) :
    groupSizes (addToGroup key pm acc) = groupSizes acc + 1 := by
  induction acc with
  | nil => rfl
  | cons kv rest ih =>
    obtain ⟨k, vs⟩ := kv
    by_cases hk : k = key
    · simp [addToGroup, hk, groupSizes]
      omega
    · simp only [addToGroup, if_neg hk, groupSizes, List.map_cons, List.sum_cons]
      rw [show (rest.map (fun kv => kv.2.length)).sum = groupSizes rest from rfl] at *
      rw [show ((addToGroup key pm rest).map (fun kv => kv.2.length)).sum
        = groupSizes (addToGroup key pm rest) from rfl]
      omega

theorem groupSizes_foldl (day : ℕ → String) :
    ∀ (sel : List (ℕ × ℕ)) (acc : List (String × List (ℕ × ℕ)) × List ℕ),
      groupSizes ((sel.foldl (log_matches_step day) acc).1)
        = groupSizes acc.1 + (sel.filter (fun pm => pm.1 ≠ pm.2)).length := by
  intro sel
  induction sel with
  | nil => intro acc; simp
  | cons pm rest ih =>
    intro acc
    rw [List.foldl_cons, ih, List.filter_cons]
    by_cases hpm : pm.1 = pm.2
    · simp [log_matches_step, hpm]
    · simp only [log_matches_step, if_neg hpm, groupSizes_addToGroup]
      simp [hpm]
      omega

/-- C8: in every solved run the reported matched and unmatched counts sum
to the roster size, the unmatched count is `len(persons) - num_matches`
with `num_matches` twice the number of real matched pairs, and the
per-day breakdown bucket sizes sum to half the matched count. -/
theorem c8_reporting_consistency (n : ℕ) (sim : ℕ → ℕ → ℚ)
    (day : ℕ → String) (status : Int) (v : ℕ × ℕ → Option ℚ)
    (r : SolveReport) (h : solveRun n sim day status v = Except.ok r) :
    (r.numMatches : ℤ) + r.numNotMatched = n ∧
      (∃ sel, get_true_possible_matches n v = Except.ok sel ∧
        r.numMatches = 2 * (sel.filter (fun pm => pm.1 ≠ pm.2)).length ∧
        r.numNotMatched
          = (n : ℤ) - 2 * (sel.filter (fun pm => pm.1 ≠ pm.2)).length) ∧
      groupSizes r.dayGroups = r.numMatches / 2 := by
  unfold solveRun at h
  cases hg : get_true_possible_matches n v with
  | error e => rw [hg] at h; cases h
  | ok sel =>
    rw [hg] at h
    simp only [Except.ok.injEq] at h
    subst h
    refine ⟨by push_cast; ring, ⟨sel, rfl, rfl, by push_cast; ring⟩, ?_⟩
    show groupSizes (log_matches_groups day sel).1 = _
    rw [log_matches_groups, groupSizes_foldl day sel ([], [])]
    simp only [groupSizes, List.map_nil, List.sum_nil, Nat.zero_add]
    omega

/-- Witness for C8 on a concrete solved 2-person run that matches the
two participants. -/
theorem c8_reporting_consistency_witness :
    ((2 : ℕ) : ℤ) + (0 : ℤ) = (2 : ℕ) ∧
      (∃ sel, get_true_possible_matches 2
            (fun pm => if pm = (0, 1) then some 1 else some 0)
          = Except.ok sel ∧
        2 = 2 * (sel.filter (fun pm => pm.1 ≠ pm.2)).length ∧
        (0 : ℤ) = ((2 : ℕ) : ℤ)
          - 2 * (sel.filter (fun pm => pm.1 ≠ pm.2)).length) ∧
      groupSizes [("Monday", [(0, 1)])] = 2 / 2 := by
  have h := c8_reporting_consistency 2 (fun _ _ => 0) (fun _ => "Monday") 1
    (fun pm => if pm = (0, 1) then some 1 else some 0)
    { statusLine := "Optimal"
      scores := [0]
      numMatches := 2
      numNotMatched := 0
      dayGroups := [("Monday", [(0, 1)])]
      unmatched := [] } rfl
  exact h

/- ### Membership in the day-breakdown buckets -/

theorem addToGroup_mem_self (key : String) (pm : ℕ × ℕ)
    (acc : List (String × List (ℕ × ℕ))) :
    ∃ vs, (key, vs) ∈ addToGroup key pm acc ∧ pm ∈ vs := by
  induction acc with
  | nil => exact ⟨[pm], by simp [addToGroup], by simp⟩
  | cons kv rest ih =>
    obtain ⟨k, vs⟩ := kv
    by_cases hk : k = key
    · subst hk
      exact ⟨vs ++ [pm], by simp [addToGroup], by simp⟩
    · obtain ⟨vs', hmem, hpm⟩ := ih
      exact ⟨vs', by simp [addToGroup, hk, hmem], hpm⟩

theorem addToGroup_mem_mono (key : String) (pm : ℕ × ℕ)
    {acc : List (String × List (ℕ × ℕ))} {k' : String} {vs' : List (ℕ × ℕ)}
    {q : ℕ × ℕ} (h : (k', vs') ∈ acc) (hq : q ∈ vs') :
    ∃ vs'', (k', vs'') ∈ addToGroup key pm acc ∧ q ∈ vs'' := by
  induction acc with
  | nil => cases h
  | cons kv rest ih =>
    obtain ⟨k, vs⟩ := kv
    rcases List.mem_cons.mp h with heq | htail
    · obtain ⟨rfl, rfl⟩ := Prod.mk.injEq .. ▸ heq
      by_cases hk : k' = key
      · subst hk
        exact ⟨vs' ++ [pm], by simp [addToGroup], by simp [hq]⟩
      · exact ⟨vs', by simp [addToGroup, hk], hq⟩
    · by_cases hk : k = key
      · subst hk
        exact ⟨vs', by simp [addToGroup, htail], hq⟩
      · obtain ⟨vs'', hmem, hq'⟩ := ih htail
        exact ⟨vs'', by simp [addToGroup, hk, hmem], hq'⟩

theorem log_matches_foldl_mono (day : ℕ → String) :
    ∀ (sel : List (ℕ × ℕ)) (acc : List (String × List (ℕ × ℕ)) × List ℕ)
      (k : String) (vs : List (ℕ × ℕ)) (q : ℕ × ℕ),
      (k, vs) ∈ acc.1 → q ∈ vs →
      ∃ vs', (k, vs') ∈ (sel.foldl (log_matches_step day) acc).1 ∧ q ∈ vs' := by
  intro sel
  induction sel with
  | nil => intro acc k vs q h hq; exact ⟨vs, h, hq⟩
  | cons pm rest ih =>
    intro acc k vs q h hq
    rw [List.foldl_cons]
    by_cases hpm : pm.1 = pm.2
    · exact ih _ k vs q (by simpa [log_matches_step, hpm] using h) hq
    · obtain ⟨vs'', hmem, hq'⟩ := addToGroup_mem_mono
        (get_day_or_either (day pm.1) (day pm.2)) pm h hq
      exact ih _ k vs'' q (by simpa [log_matches_step, hpm] using hmem) hq'

theorem log_matches_mem_bucket (day : ℕ → String) :
    ∀ (sel : List (ℕ × ℕ)) (acc : List (String × List (ℕ × ℕ)) × List ℕ)
      (pm : ℕ × ℕ), pm ∈ sel → pm.1 ≠ pm.2 →
      ∃ vs, (get_day_or_either (day pm.1) (day pm.2), vs)
          ∈ (sel.foldl (log_matches_step day) acc).1 ∧ pm ∈ vs := by
  intro sel
  induction sel with
  | nil => intro acc pm h; cases h
  | cons q rest ih =>
    intro acc pm h hne
    rw [List.foldl_cons]
    rcases List.mem_cons.mp h with rfl | htail
    · obtain ⟨vs, hmem, hpm⟩ := addToGroup_mem_self
        (get_day_or_either (day pm.1) (day pm.2)) pm acc.1
      exact log_matches_foldl_mono day rest _ _ vs pm
        (by simpa [log_matches_step, hne] using hmem) hpm
    · exact ih _ pm htail hne

/-- C9: every selected real pair is grouped under
`get_day_or_either(day1, day2)`: the shared value when the two sides
agree, the non-wildcard side's value when one side is `"Either"`, and the
first side's value when both are non-wildcard and disagree. -/
theorem c9_day_breakdown (day : ℕ → String) (sel : List (ℕ × ℕ))
    (pm : ℕ × ℕ) (hmem : pm ∈ sel) (hne : pm.1 ≠ pm.2) :
    (∃ vs, (get_day_or_either (day pm.1) (day pm.2), vs)
        ∈ (log_matches_groups day sel).1 ∧ pm ∈ vs) ∧
      (day pm.1 = day pm.2 →
        get_day_or_either (day pm.1) (day pm.2) = day pm.1) ∧
      (day pm.1 = "Either" →
        get_day_or_either (day pm.1) (day pm.2) = day pm.2) ∧
      (day pm.1 ≠ "Either" →
        get_day_or_either (day pm.1) (day pm.2) = day pm.1) := by
  refine ⟨log_matches_mem_bucket day sel ([], []) pm hmem hne, ?_, ?_, ?_⟩
  · intro hagree
    rw [get_day_or_either]
    by_cases h1 : day pm.1 = "Either"
    · rw [if_neg (fun hn => hn h1)]
      exact hagree.symm
    · rw [if_pos h1]
  · intro h1
    simp [get_day_or_either, h1]
  · intro h1
    simp [get_day_or_either, h1]

/-- Witness for C9: the pair `(0,1)` with days Monday/Either lands in the
Monday bucket. -/
theorem c9_day_breakdown_witness :
    (∃ vs, (get_day_or_either ((fun i => if i = 0 then "Monday" else "Either") 0)
          ((fun i => if i = 0 then "Monday" else "Either") 1), vs)
        ∈ (log_matches_groups (fun i => if i = 0 then "Monday" else "Either")
            [(0, 1)]).1 ∧ (0, 1) ∈ vs) ∧
      ((fun i => if i = 0 then "Monday" else "Either") 0
          = (fun i => if i = 0 then "Monday" else "Either") 1 →
        get_day_or_either ((fun i => if i = 0 then "Monday" else "Either") 0)
            ((fun i => if i = 0 then "Monday" else "Either") 1)
          = (fun i => if i = 0 then "Monday" else "Either") 0) ∧
      ((fun i => if i = 0 then "Monday" else "Either") 0 = "Either" →
        get_day_or_either ((fun i => if i = 0 then "Monday" else "Either") 0)
            ((fun i => if i = 0 then "Monday" else "Either") 1)
          = (fun i => if i = 0 then "Monday" else "Either") 1) ∧
      ((fun i => if i = 0 then "Monday" else "Either") 0 ≠ "Either" →
        get_day_or_either ((fun i => if i = 0 then "Monday" else "Either") 0)
            ((fun i => if i = 0 then "Monday" else "Either") 1)
          = (fun i => if i = 0 then "Monday" else "Either") 0) :=
  c9_day_breakdown (fun i => if i = 0 then "Monday" else "Either") [(0, 1)]
    (0, 1) (by decide) (by decide)

/- ### Extraction before solving (unassigned `varValue`) -/

theorem filterTruthy_error_of_none {v : ℕ × ℕ → Option ℚ} :
    ∀ {l : List (ℕ × ℕ)}, (∃ pm ∈ l, v pm = none) →
      ∃ e, filterTruthy v l = Except.error e := by
  intro l
  induction l with
  | nil => rintro ⟨pm, h, _⟩; cases h
  | cons q rest ih =>
    rintro ⟨pm, hmem, hnone⟩
    cases hq : v q with
    | none =>
      exact ⟨"TypeError: not supported between NoneType and int",
        by simp [filterTruthy, hq, varValueGtZero]⟩
    | some val =>
      have hprest : pm ∈ rest := by
        rcases List.mem_cons.mp hmem with rfl | h
        · rw [hq] at hnone; cases hnone
        · exact h
      obtain ⟨e, he⟩ := ih ⟨pm, hprest, hnone⟩
      exact ⟨e, by simp [filterTruthy, hq, varValueGtZero, he]⟩

/-- C10: extraction is only total after a full assignment: with any
variable still unassigned (`None`), `get_true_possible_matches` (and with
it `get_matches` and `get_true_variables`) raises the `TypeError` from
`varValue > 0` instead of returning an empty or shortened selection. -/
theorem c10_extraction_requires_assignment (n : ℕ) (v : ℕ × ℕ → Option ℚ)
    (h : ∃ pm ∈ possible_matches n, v pm = none) :
    (∃ e, get_true_possible_matches n v = Except.error e) ∧
      (∃ e, get_matches n v = Except.error e) ∧
      (∃ e, get_true_variables n v = Except.error e) := by
  obtain ⟨e, he⟩ := filterTruthy_error_of_none (l := possible_matches n) h
  refine ⟨⟨e, he⟩, ⟨e, ?_⟩, ⟨e, ?_⟩⟩
  · rw [get_matches, get_true_possible_matches, he]; rfl
  · rw [get_true_variables, get_true_possible_matches, he]; rfl

/-- Witness for C10: on a 1-person roster with its variable unassigned,
extraction raises. -/
theorem c10_extraction_requires_assignment_witness :
    (∃ e, get_true_possible_matches 1 (fun _ => none) = Except.error e) ∧
      (∃ e, get_matches 1 (fun _ => none) = Except.error e) ∧
      (∃ e, get_true_variables 1 (fun _ => none) = Except.error e) :=
  c10_extraction_requires_assignment 1 (fun _ => none)
    ⟨(0, 0), by decide, rfl⟩

end DatePairing
